import Mathlib

/-!
Verification of the local logic of `community/optimization/vertex_cover.ipynb`:
the brute-force minimum vertex cover search and its bitfield enumeration.

The notebook's only locally defined code is `brute_force` with its inner helper
`bitfield`; the validity predicate `vertex_cover.check_full_edge_coverage`, the
seeded random graph generator and the eigensolver pipeline are external
framework calls, modelled here from the specification where needed.
-/

/-- Recursion core for `binDigits`, structurally recursive on a fuel argument
so that it reduces inside the kernel; `binDigits` supplies fuel `n`, which is
always sufficient (the recursion depth is logarithmic). -/
def binDigitsGo (fuel n : Nat) : List Nat :=
  match fuel with
  | 0 => [n % 2]
  | fuel + 1 => if n < 2 then [n % 2] else binDigitsGo fuel (n / 2) ++ [n % 2]

/-- Big-endian binary digits of a natural number, as `np.binary_repr` produces
them before padding: `0` yields `[0]` (numpy's special case `'0' * (width or 1)`
with the `or`-default width 1), and positive numbers yield `bin(n)[2:]` with no
leading zeros. -/
def binDigits (n : Nat) : List Nat := binDigitsGo n n

/-- `bitfield n L` from the notebook: the digit list of `np.binary_repr(n, L)`,
i.e. the big-endian digits of `n` zero-padded on the left to width `L`
(padding never truncates: for `n ≥ 2^L` the result is longer than `L`). -/
def bitfield (n L : Nat) : List Nat :=
  List.replicate (L - (binDigits n).length) 0 ++ binDigits n

/-- `np.count_nonzero` on a digit list: the number of entries that are not 0. -/
def count_nonzero (v : List Nat) : Nat := (v.filter (fun b => b != 0)).length

/-- Modelled from the spec: `vertex_cover.check_full_edge_coverage` is external
framework code (the qiskit-aqua ising translator), absent from the repository
sources; the spec defines the validity predicate as "a candidate is a valid
vertex cover iff for every pair (i,j) with nonzero weight, at least one of bit
i or bit j is set". -/
def check_full_edge_coverage (x : List Nat) (w : List (List Int)) : Bool :=
  decide (∀ i < w.length, ∀ j < w.length,
    (w.getD i []).getD j 0 ≠ 0 → (x.getD i 0 = 1 ∨ x.getD j 0 = 1))

/-- The spec-level validity predicate, stated as a proposition: every pair
`(i, j)` with nonzero weight has at least one selected endpoint. -/
def isValidCover (x : List Nat) (w : List (List Int)) : Prop :=
  ∀ i < w.length, ∀ j < w.length,
    (w.getD i []).getD j 0 ≠ 0 → (x.getD i 0 = 1 ∨ x.getD j 0 = 1)

/-- Spec-level objective: the Hamming weight, i.e. the count of 1-bits. -/
def hamming_weight (v : List Nat) : Nat := (v.filter (fun b => b == 1)).length

/-- Spec-level candidate solutions: length-`N` binary vectors. -/
def isBinVec (N : Nat) (v : List Nat) : Prop :=
  v.length = N ∧ ∀ b ∈ v, b = 0 ∨ b = 1

/-- One iteration of the brute-force loop body: test the current bitfield with
the coverage predicate and keep the smaller nonzero count. `none` models the
initial `np.inf` value of `minimal_v` (every integer compares below it, so the
first passing candidate always replaces it). -/
def bfStep (w : List (List Int)) (L : Nat) (minimal_v : Option Nat) (i : Nat) :
    Option Nat :=
  let cur := bitfield i L
  if check_full_edge_coverage cur w then
    let nonzerocount := count_nonzero cur
    match minimal_v with
    | none => some nonzerocount
    | some m => if nonzerocount < m then some nonzerocount else some m
  else minimal_v

/-- `brute_force` from the notebook, parametrised by the globals it closes
over (`w` and `num_nodes`): enumerate `i` over `range(2 ** num_nodes)`,
expand each `i` with `bitfield`, and track the minimal nonzero count among
candidates passing the coverage predicate, starting from `np.inf` (`none`). -/
def brute_force (w : List (List Int)) (num_nodes : Nat) : Option Nat :=
  (List.range (2 ^ num_nodes)).foldl (bfStep w num_nodes) none

/-- Minimum of two optional naturals, `none` acting as `np.inf`. -/
def omin : Option Nat → Option Nat → Option Nat
  | none, b => b
  | some a, none => some a
  | some a, some b => some (min a b)

/-- The minimum nonzero count among the indices of `l` whose bitfield passes
the coverage predicate (`none` when none passes): the value the brute-force
fold computes. -/
def candMin (w : List (List Int)) (L : Nat) (l : List Nat) : Option Nat :=
  l.foldr (fun i acc =>
    if check_full_edge_coverage (bitfield i L) w then
      omin (some (count_nonzero (bitfield i L))) acc
    else acc) none

/-- Big-endian value of a digit list: the left fold `a ↦ 2 * a + b`. -/
def fromBits (v : List Nat) : Nat := v.foldl (fun a b => 2 * a + b) 0

/-- The brute-force loop instrumented with a counter incremented once per
iteration, i.e. once per evaluation of the coverage predicate. -/
def brute_force_counted (w : List (List Int)) (num_nodes : Nat) :
    Option Nat × Nat :=
  (List.range (2 ^ num_nodes)).foldl
    (fun acc i => (bfStep w num_nodes acc.1 i, acc.2 + 1)) (none, 0)

/-- Modelled from the spec: the weight matrix of the seeded example
(`np.random.seed(100)` followed by
`vertex_cover.random_graph(3, edge_prob=0.8, weight_range=10)`, external
framework code); the notebook prints it as `[[0,4,5],[4,0,3],[5,3,0]]`. -/
def example_w : List (List Int) := [[0, 4, 5], [4, 0, 3], [5, 3, 0]]

/-- Modelled from the spec: the solution vector extracted from the
exact-eigensolver result (`sample_most_likely` then `get_graph_solution`,
external framework code), asserted equal to `[0, 1, 1]` in the notebook. -/
def eigensolver_sol : List Nat := [0, 1, 1]

/-! ### Basic lemmas about the bitfield encoding -/

lemma binDigitsGo_congr : ∀ f₁ f₂ n : Nat, n ≤ f₁ → n ≤ f₂ →
    binDigitsGo f₁ n = binDigitsGo f₂ n := by
  intro f₁
  induction f₁ with
  | zero =>
    intro f₂ n h₁ _
    interval_cases n
    cases f₂ <;> simp [binDigitsGo]
  | succ f ih =>
    intro f₂ n h₁ h₂
    by_cases hn : n < 2
    · cases f₂ <;> simp [binDigitsGo, hn]
    · have hf₂ : ∃ f', f₂ = f' + 1 := ⟨f₂ - 1, by omega⟩
      obtain ⟨f', rfl⟩ := hf₂
      simp only [binDigitsGo, if_neg hn]
      have hd : n / 2 < n := Nat.div_lt_self (by omega) (by omega)
      rw [ih f' (n / 2) (by omega) (by omega)]

lemma binDigits_eq (n : Nat) :
    binDigits n = if n < 2 then [n % 2] else binDigits (n / 2) ++ [n % 2] := by
  by_cases hn : n < 2
  · simp only [if_pos hn]
    interval_cases n <;> rfl
  · simp only [if_neg hn, binDigits]
    have h1 : ∃ f, n = f + 1 := ⟨n - 1, by omega⟩
    obtain ⟨f, rfl⟩ := h1
    simp only [binDigitsGo, if_neg hn]
    congr 1
    exact binDigitsGo_congr f ((f + 1) / 2) ((f + 1) / 2) (by omega)
      (Nat.le_refl _)

lemma binDigits_entries (n : Nat) : ∀ b ∈ binDigits n, b = 0 ∨ b = 1 := by
  induction n using Nat.strong_induction_on with
  | _ n ih =>
    rw [binDigits_eq]
    by_cases hn : n < 2
    · simp only [if_pos hn, List.mem_singleton]
      rintro b rfl
      omega
    · simp only [if_neg hn, List.mem_append, List.mem_singleton]
      rintro b (hb | rfl)
      · exact ih (n / 2) (Nat.div_lt_self (by omega) (by omega)) b hb
      · omega

lemma binDigits_ne_nil (n : Nat) : binDigits n ≠ [] := by
  rw [binDigits_eq]
  by_cases hn : n < 2 <;> simp [hn]

lemma binDigits_length_le (n L : Nat) (hL : 1 ≤ L) (hn : n < 2 ^ L) :
    (binDigits n).length ≤ L := by
  induction n using Nat.strong_induction_on generalizing L with
  | _ n ih =>
    rw [binDigits_eq]
    by_cases h2 : n < 2
    · simpa [h2] using hL
    · have hL2 : 2 ≤ L := by
        by_contra hc
        have : L = 1 := by omega
        subst this
        simp at hn
        omega
      simp only [if_neg h2, List.length_append, List.length_singleton]
      have hdiv : n / 2 < 2 ^ (L - 1) := by
        have h2L : 2 ^ L = 2 ^ (L - 1) * 2 := by
          rw [← pow_succ]
          congr 1
          omega
        omega
      have := ih (n / 2) (Nat.div_lt_self (by omega) (by omega)) (L - 1)
        (by omega) hdiv
      omega

lemma fromBits_append (v : List Nat) (b : Nat) :
    fromBits (v ++ [b]) = 2 * fromBits v + b := by
  simp [fromBits, List.foldl_append]

lemma fromBits_zero_prefix (k : Nat) (s : List Nat) :
    fromBits (List.replicate k 0 ++ s) = fromBits s := by
  induction k with
  | zero => simp
  | succ k ih =>
    have : List.replicate (k + 1) 0 ++ s = 0 :: (List.replicate k 0 ++ s) := by
      simp [List.replicate_succ]
    rw [this]
    simpa [fromBits] using ih

lemma fromBits_binDigits (n : Nat) : fromBits (binDigits n) = n := by
  induction n using Nat.strong_induction_on with
  | _ n ih =>
    rw [binDigits_eq]
    by_cases hn : n < 2
    · simp only [if_pos hn]
      simp [fromBits]
      omega
    · simp only [if_neg hn, fromBits_append,
        ih (n / 2) (Nat.div_lt_self (by omega) (by omega))]
      omega

lemma fromBits_bitfield (n L : Nat) : fromBits (bitfield n L) = n := by
  rw [bitfield, fromBits_zero_prefix, fromBits_binDigits]

lemma bitfield_length (n L : Nat) (hL : 1 ≤ L) (hn : n < 2 ^ L) :
    (bitfield n L).length = L := by
  have h := binDigits_length_le n L hL hn
  simp only [bitfield, List.length_append, List.length_replicate]
  omega

lemma bitfield_entries (n L : Nat) : ∀ b ∈ bitfield n L, b = 0 ∨ b = 1 := by
  intro b hb
  simp only [bitfield, List.mem_append, List.mem_replicate] at hb
  rcases hb with ⟨_, rfl⟩ | hb
  · exact Or.inl rfl
  · exact binDigits_entries n b hb

lemma fromBits_lt (v : List Nat) (hb : ∀ b ∈ v, b = 0 ∨ b = 1) :
    fromBits v < 2 ^ v.length := by
  induction v using List.reverseRecOn with
  | nil => simp [fromBits]
  | append_singleton v b ih =>
    have hb' : ∀ x ∈ v, x = 0 ∨ x = 1 := fun x hx =>
      hb x (List.mem_append_left _ hx)
    have hbb : b = 0 ∨ b = 1 := hb b (List.mem_append_right _ (by simp))
    have := ih hb'
    rw [fromBits_append]
    simp only [List.length_append, List.length_singleton, pow_succ]
    omega

lemma binDigits_small (b : Nat) (hb : b < 2) : binDigits b = [b] := by
  rw [binDigits_eq, if_pos hb, Nat.mod_eq_of_lt hb]

lemma binDigits_two_mul_add (m b : Nat) (hm : 1 ≤ m) (hb : b < 2) :
    binDigits (2 * m + b) = binDigits m ++ [b] := by
  rw [binDigits_eq, if_neg (by omega)]
  have h1 : (2 * m + b) / 2 = m := by omega
  have h2 : (2 * m + b) % 2 = b := by omega
  rw [h1, h2]

lemma bitfield_zero_eq (L : Nat) (hL : 1 ≤ L) :
    bitfield 0 L = List.replicate L 0 := by
  have h0 : binDigits 0 = [0] := binDigits_small 0 (by omega)
  have : [(0 : Nat)] = List.replicate 1 0 := rfl
  rw [bitfield, h0, this, ← List.replicate_add]
  congr 1
  simp
  omega

lemma bitfield_fromBits (v : List Nat) (hb : ∀ b ∈ v, b = 0 ∨ b = 1)
    (hlen : 1 ≤ v.length) : bitfield (fromBits v) v.length = v := by
  induction v using List.reverseRecOn with
  | nil => simp at hlen
  | append_singleton v b ih =>
    have hb' : ∀ x ∈ v, x = 0 ∨ x = 1 := fun x hx =>
      hb x (List.mem_append_left _ hx)
    have hbb : b < 2 := by
      rcases hb b (List.mem_append_right _ (by simp)) with h | h <;> omega
    rw [fromBits_append]
    have hlen1 : (v ++ [b]).length = v.length + 1 := by simp
    rw [hlen1]
    by_cases hm : fromBits v = 0
    · have hv0 : v = List.replicate v.length 0 := by
        rcases Nat.eq_zero_or_pos v.length with h0 | hpos
        · rw [List.length_eq_zero.mp h0]
          rfl
        · have h2 := ih hb' hpos
          rw [hm, bitfield_zero_eq v.length hpos] at h2
          exact h2.symm
      rw [hm, Nat.mul_zero, Nat.zero_add, bitfield, binDigits_small b hbb]
      simp only [List.length_singleton, Nat.add_sub_cancel]
      conv_rhs => rw [hv0]
    · have hm1 : 1 ≤ fromBits v := by omega
      have hvpos : 1 ≤ v.length := by
        rcases Nat.eq_zero_or_pos v.length with h0 | hpos
        · rw [List.length_eq_zero.mp h0] at hm
          simp [fromBits] at hm
        · exact hpos
      have IH := ih hb' hvpos
      rw [bitfield, binDigits_two_mul_add (fromBits v) b hm1 hbb]
      rw [List.length_append, List.length_singleton]
      have harith : v.length + 1 - ((binDigits (fromBits v)).length + 1)
          = v.length - (binDigits (fromBits v)).length := by omega
      rw [harith, ← List.append_assoc]
      rw [bitfield] at IH
      rw [IH]

/-! ### The brute-force fold computes the minimum over passing candidates -/

lemma omin_none_right (a : Option Nat) : omin a none = a := by
  cases a <;> rfl

lemma omin_assoc (a b c : Option Nat) :
    omin (omin a b) c = omin a (omin b c) := by
  cases a <;> cases b <;> cases c <;> simp [omin, Nat.min_assoc]

lemma bfStep_eq (w : List (List Int)) (L : Nat) (acc : Option Nat) (i : Nat) :
    bfStep w L acc i =
      if check_full_edge_coverage (bitfield i L) w then
        omin acc (some (count_nonzero (bitfield i L)))
      else acc := by
  cases acc with
  | none => rfl
  | some m =>
    by_cases hc : check_full_edge_coverage (bitfield i L) w
    · simp only [bfStep, if_pos hc, omin]
      by_cases hlt : count_nonzero (bitfield i L) < m
      · rw [if_pos hlt]
        congr 1
        omega
      · rw [if_neg hlt]
        congr 1
        omega
    · simp [bfStep, hc]

lemma candMin_cons (w : List (List Int)) (L i : Nat) (l : List Nat) :
    candMin w L (i :: l) =
      if check_full_edge_coverage (bitfield i L) w then
        omin (some (count_nonzero (bitfield i L))) (candMin w L l)
      else candMin w L l := rfl

lemma foldl_bfStep (w : List (List Int)) (L : Nat) (l : List Nat)
    (acc : Option Nat) :
    l.foldl (bfStep w L) acc = omin acc (candMin w L l) := by
  induction l generalizing acc with
  | nil => rw [List.foldl_nil, candMin, List.foldr_nil, omin_none_right]
  | cons i l ih =>
    rw [List.foldl_cons, ih, candMin_cons, bfStep_eq]
    by_cases hc : check_full_edge_coverage (bitfield i L) w
    · rw [if_pos hc, if_pos hc, omin_assoc]
    · rw [if_neg hc, if_neg hc]

lemma brute_force_eq_candMin (w : List (List Int)) (L : Nat) :
    brute_force w L = candMin w L (List.range (2 ^ L)) := by
  rw [brute_force, foldl_bfStep]
  rfl

lemma candMin_mem (w : List (List Int)) (L : Nat) (l : List Nat) :
    ∀ m : Nat, candMin w L l = some m →
    ∃ i ∈ l, check_full_edge_coverage (bitfield i L) w = true ∧
      count_nonzero (bitfield i L) = m := by
  induction l with
  | nil =>
    intro m h
    simp [candMin] at h
  | cons i l ih =>
    intro m h
    rw [candMin_cons] at h
    by_cases hc : check_full_edge_coverage (bitfield i L) w
    · rw [if_pos hc] at h
      cases hcl : candMin w L l with
      | none =>
        rw [hcl, omin_none_right] at h
        exact ⟨i, by simp, hc, by injection h⟩
      | some m' =>
        rw [hcl] at h
        simp only [omin, Option.some.injEq] at h
        rcases Nat.le_total (count_nonzero (bitfield i L)) m' with hle | hle
        · refine ⟨i, by simp, hc, ?_⟩
          omega
        · obtain ⟨j, hj, hcj, hvj⟩ := ih m' hcl
          refine ⟨j, by simp [hj], hcj, ?_⟩
          omega
    · rw [if_neg hc] at h
      obtain ⟨j, hj, hcj, hvj⟩ := ih m h
      exact ⟨j, by simp [hj], hcj, hvj⟩

lemma candMin_none_iff (w : List (List Int)) (L : Nat) (l : List Nat) :
    candMin w L l = none ↔
      ∀ i ∈ l, check_full_edge_coverage (bitfield i L) w = false := by
  induction l with
  | nil => simp [candMin]
  | cons i l ih =>
    rw [candMin_cons]
    by_cases hc : check_full_edge_coverage (bitfield i L) w
    · rw [if_pos hc]
      constructor
      · intro h
        exfalso
        cases hcl : candMin w L l <;> rw [hcl] at h <;> simp [omin] at h
      · intro h
        exact absurd hc (by simp [h i (by simp)])
    · rw [if_neg hc, ih]
      constructor
      · intro h j hj
        rcases List.mem_cons.mp hj with rfl | hj'
        · simpa using hc
        · exact h j hj'
      · intro h j hj
        exact h j (by simp [hj])

lemma candMin_le (w : List (List Int)) (L : Nat) (l : List Nat) :
    ∀ m : Nat, candMin w L l = some m →
    ∀ j ∈ l, check_full_edge_coverage (bitfield j L) w = true →
      m ≤ count_nonzero (bitfield j L) := by
  induction l with
  | nil => simp
  | cons i l ih =>
    intro m h j hj hcj
    rw [candMin_cons] at h
    by_cases hc : check_full_edge_coverage (bitfield i L) w
    · rw [if_pos hc] at h
      cases hcl : candMin w L l with
      | none =>
        rw [hcl, omin_none_right] at h
        rcases List.mem_cons.mp hj with rfl | hj'
        · injection h with h
          omega
        · exact absurd hcj (by simp [(candMin_none_iff w L l).mp hcl j hj'])
      | some m' =>
        rw [hcl] at h
        simp only [omin, Option.some.injEq] at h
        rcases List.mem_cons.mp hj with rfl | hj'
        · omega
        · have := ih m' hcl j hj' hcj
          omega
    · rw [if_neg hc] at h
      rcases List.mem_cons.mp hj with rfl | hj'
      · exact absurd hcj (by simp [hc])
      · exact ih m h j hj' hcj

/-! ### Bridging the boolean predicate, the objective, and the enumeration -/

lemma check_iff (x : List Nat) (w : List (List Int)) :
    check_full_edge_coverage x w = true ↔ isValidCover x w := by
  simp [check_full_edge_coverage, isValidCover]

lemma count_nonzero_eq_hamming (v : List Nat)
    (hb : ∀ b ∈ v, b = 0 ∨ b = 1) :
    count_nonzero v = hamming_weight v := by
  induction v with
  | nil => rfl
  | cons b v ih =>
    have hb' : ∀ x ∈ v, x = 0 ∨ x = 1 := fun x hx =>
      hb x (List.mem_cons_of_mem _ hx)
    rcases hb b (by simp) with rfl | rfl
    · simpa [count_nonzero, hamming_weight, List.filter_cons] using ih hb'
    · simpa [count_nonzero, hamming_weight, List.filter_cons] using ih hb'

lemma getD_replicate {α : Type} (n i : Nat) (a d : α) (h : i < n) :
    (List.replicate n a).getD i d = a := by
  induction n generalizing i with
  | zero => omega
  | succ n ih =>
    rw [List.replicate_succ]
    cases i with
    | zero => rfl
    | succ i => exact ih i (by omega)

lemma hamming_weight_replicate_one (n : Nat) :
    hamming_weight (List.replicate n 1) = n := by
  simp [hamming_weight]

lemma isValidCover_ones (N : Nat) (w : List (List Int)) (hlen : w.length = N) :
    isValidCover (List.replicate N 1) w := by
  intro i hi j hj _
  exact Or.inl (getD_replicate N i 1 0 (by omega))

lemma isBinVec_ones (N : Nat) : isBinVec N (List.replicate N 1) := by
  constructor
  · simp
  · intro b hb
    rw [List.mem_replicate] at hb
    exact Or.inr hb.2

/-- Main characterisation: `brute_force w N` returns `some m` where `m` is the
minimum Hamming weight over all length-`N` binary vectors that are valid
covers of the `N × N` matrix `w`. -/
lemma brute_force_min (N : Nat) (w : List (List Int)) (hlen : w.length = N) :
    ∃ m, brute_force w N = some m ∧
      (∃ v, isBinVec N v ∧ isValidCover v w ∧ hamming_weight v = m) ∧
      (∀ v, isBinVec N v → isValidCover v w → m ≤ hamming_weight v) := by
  rcases Nat.eq_zero_or_pos N with rfl | hN
  · have hw : w = [] := List.length_eq_zero.mp hlen
    subst hw
    refine ⟨0, by decide, ⟨[], ⟨rfl, by simp⟩, ?_, rfl⟩, ?_⟩
    · intro i hi
      exact absurd hi (by simp)
    · intro v _ _
      exact Nat.zero_le _
  · have hones_bin : isBinVec N (List.replicate N 1) := isBinVec_ones N
    have hones_lt : fromBits (List.replicate N 1) < 2 ^ N := by
      have := fromBits_lt (List.replicate N 1) hones_bin.2
      simpa using this
    have hones_bf : bitfield (fromBits (List.replicate N 1)) N
        = List.replicate N 1 := by
      have := bitfield_fromBits (List.replicate N 1) hones_bin.2
        (by simpa using hN)
      simpa using this
    cases hm : candMin w N (List.range (2 ^ N)) with
    | none =>
      exfalso
      have hfalse := (candMin_none_iff w N (List.range (2 ^ N))).mp hm
        (fromBits (List.replicate N 1)) (List.mem_range.mpr hones_lt)
      rw [hones_bf] at hfalse
      have htrue : check_full_edge_coverage (List.replicate N 1) w = true :=
        (check_iff _ _).mpr (isValidCover_ones N w hlen)
      rw [htrue] at hfalse
      exact Bool.noConfusion hfalse
    | some m =>
      have hbf : brute_force w N = some m := by
        rw [brute_force_eq_candMin, hm]
      refine ⟨m, hbf, ?_, ?_⟩
      · obtain ⟨i, hi, hci, hvi⟩ := candMin_mem w N (List.range (2 ^ N)) m hm
        have hilt : i < 2 ^ N := List.mem_range.mp hi
        have hbin : isBinVec N (bitfield i N) :=
          ⟨bitfield_length i N (by omega) hilt, bitfield_entries i N⟩
        refine ⟨bitfield i N, hbin, (check_iff _ _).mp hci, ?_⟩
        rw [← count_nonzero_eq_hamming _ hbin.2, hvi]
      · intro v hv hvalid
        have hvlt : fromBits v < 2 ^ N := by
          have := fromBits_lt v hv.2
          rwa [hv.1] at this
        have hvbf : bitfield (fromBits v) N = v := by
          have := bitfield_fromBits v hv.2 (by rw [hv.1]; omega)
          rwa [hv.1] at this
        have hle := candMin_le w N (List.range (2 ^ N)) m hm (fromBits v)
          (List.mem_range.mpr hvlt)
        rw [hvbf] at hle
        have := hle ((check_iff _ _).mpr hvalid)
        rwa [count_nonzero_eq_hamming v hv.2] at this

lemma counted_fst (w : List (List Int)) (L : Nat) (l : List Nat)
    (acc : Option Nat × Nat) :
    (l.foldl (fun acc i => (bfStep w L acc.1 i, acc.2 + 1)) acc).1
      = l.foldl (bfStep w L) acc.1 := by
  induction l generalizing acc with
  | nil => rfl
  | cons i l ih => rw [List.foldl_cons, List.foldl_cons, ih]

lemma counted_snd (w : List (List Int)) (L : Nat) (l : List Nat)
    (acc : Option Nat × Nat) :
    (l.foldl (fun acc i => (bfStep w L acc.1 i, acc.2 + 1)) acc).2
      = acc.2 + l.length := by
  induction l generalizing acc with
  | nil => simp
  | cons i l ih =>
    rw [List.foldl_cons, ih]
    simp only [List.length_cons]
    omega

lemma getD_one_imp_lt (v : List Nat) (i : Nat) (h : v.getD i 0 = 1) :
    i < v.length := by
  by_contra hc
  rw [List.getD_eq_default v 0 (by omega)] at h
  exact absurd h (by omega)

/-! ### Claim theorems -/

/-- Claim C1: for every N×N non-negative weight matrix `w`, `brute_force`
returns `some m` where `m` is the minimum Hamming weight over all length-N
binary vectors satisfying the full-edge-coverage predicate; a valid cover
always exists (the all-ones vector), so the result is never the no-solution
report. -/
theorem brute_force_computes_min_cover (N : Nat) (w : List (List Int))
    (hlen : w.length = N)
    (_hrows : ∀ row ∈ w, row.length = N)
    (_hnn : ∀ row ∈ w, ∀ x ∈ row, 0 ≤ x) :
    ∃ m, brute_force w N = some m ∧
      (∃ v, isBinVec N v ∧ isValidCover v w ∧ hamming_weight v = m) ∧
      (∀ v, isBinVec N v → isValidCover v w → m ≤ hamming_weight v) :=
  brute_force_min N w hlen

theorem brute_force_computes_min_cover_witness :
    example_w.length = 3 ∧
    (∀ row ∈ example_w, row.length = 3) ∧
    (∀ row ∈ example_w, ∀ x ∈ row, (0 : Int) ≤ x) ∧
    (∃ m, brute_force example_w 3 = some m ∧
      (∃ v, isBinVec 3 v ∧ isValidCover v example_w ∧ hamming_weight v = m) ∧
      (∀ v, isBinVec 3 v → isValidCover v example_w →
        m ≤ hamming_weight v)) :=
  ⟨by decide, by decide, by decide,
    brute_force_computes_min_cover 3 example_w (by decide) (by decide)
      (by decide)⟩

/-- Claim C2: on the seeded 3-vertex example matrix, the brute-force search
returns minimum cover size 2, and the (spec-modelled) eigensolver solution
vector equals `[0, 1, 1]`, has nonzero count 2, and is itself a valid cover,
so the two paths agree. -/
theorem seeded_example_agreement :
    brute_force example_w 3 = some 2 ∧
    eigensolver_sol = [0, 1, 1] ∧
    count_nonzero eigensolver_sol = 2 ∧
    check_full_edge_coverage eigensolver_sol example_w = true ∧
    brute_force example_w 3 = some (count_nonzero eigensolver_sol) := by
  refine ⟨by decide, by decide, by decide, by decide, by decide⟩

/-- Claim C3 (counterexample): at `L = 0`, `n = 0` (which satisfies
`n < 2 ^ L`), `bitfield` returns the one-entry list `[0]`, not a list of
exactly `L = 0` entries, because `np.binary_repr(0, 0)` is the string `"0"`. -/
theorem bitfield_width_zero : bitfield 0 0 = [0] ∧
    (bitfield 0 0).length ≠ 0 := by decide

/-- Claim C3 (amended to `L ≥ 1`): for every `L ≥ 1` and `n < 2 ^ L`,
`bitfield n L` has exactly `L` entries, each 0 or 1, whose big-endian value
is `n`; distinct `n` give distinct lists, and every length-`L` binary vector
is hit by exactly one index below `2 ^ L`, so the brute-force loop enumerates
each such vector exactly once. -/
theorem bitfield_enumerates (L : Nat) (hL : 1 ≤ L) (n : Nat)
    (hn : n < 2 ^ L) :
    (bitfield n L).length = L ∧
    (∀ b ∈ bitfield n L, b = 0 ∨ b = 1) ∧
    fromBits (bitfield n L) = n ∧
    (∀ m, m < 2 ^ L → bitfield m L = bitfield n L → m = n) ∧
    (∀ v : List Nat, v.length = L → (∀ b ∈ v, b = 0 ∨ b = 1) →
      ∃ i, i < 2 ^ L ∧ bitfield i L = v ∧
        ∀ j, j < 2 ^ L → bitfield j L = v → j = i) := by
  refine ⟨bitfield_length n L hL hn, bitfield_entries n L,
    fromBits_bitfield n L, ?_, ?_⟩
  · intro m _ heq
    have hm := fromBits_bitfield m L
    rw [heq, fromBits_bitfield] at hm
    exact hm.symm
  · intro v hvlen hvbin
    refine ⟨fromBits v, ?_, ?_, ?_⟩
    · have := fromBits_lt v hvbin
      rwa [hvlen] at this
    · have := bitfield_fromBits v hvbin (by omega)
      rwa [hvlen] at this
    · intro j _ hj
      have := fromBits_bitfield j L
      rw [hj] at this
      exact this.symm

theorem bitfield_enumerates_witness :
    1 ≤ 1 ∧ 0 < 2 ^ 1 ∧
    ((bitfield 0 1).length = 1 ∧
    (∀ b ∈ bitfield 0 1, b = 0 ∨ b = 1) ∧
    fromBits (bitfield 0 1) = 0 ∧
    (∀ m, m < 2 ^ 1 → bitfield m 1 = bitfield 0 1 → m = 0) ∧
    (∀ v : List Nat, v.length = 1 → (∀ b ∈ v, b = 0 ∨ b = 1) →
      ∃ i, i < 2 ^ 1 ∧ bitfield i 1 = v ∧
        ∀ j, j < 2 ^ 1 → bitfield j 1 = v → j = i)) :=
  ⟨by decide, by decide, bitfield_enumerates 1 (by decide) 0 (by decide)⟩

/-- Claim C4: the validity predicate is monotone in the selected-vertex set:
if `v` is a valid cover and every bit set in `v` is also set in the
equal-length binary vector `v'`, then `v'` is a valid cover. -/
theorem check_coverage_monotone (w : List (List Int)) (v v' : List Nat)
    (_hlen : v.length = v'.length)
    (_hv : ∀ b ∈ v, b = 0 ∨ b = 1) (_hv' : ∀ b ∈ v', b = 0 ∨ b = 1)
    (hsub : ∀ i, i < v.length → v.getD i 0 = 1 → v'.getD i 0 = 1)
    (hcov : check_full_edge_coverage v w = true) :
    check_full_edge_coverage v' w = true := by
  rw [check_iff] at hcov ⊢
  intro i hi j hj hne
  rcases hcov i hi j hj hne with h | h
  · exact Or.inl (hsub i (getD_one_imp_lt v i h) h)
  · exact Or.inr (hsub j (getD_one_imp_lt v j h) h)

theorem check_coverage_monotone_witness :
    ([0, 1] : List Nat).length = ([1, 1] : List Nat).length ∧
    (∀ b ∈ ([0, 1] : List Nat), b = 0 ∨ b = 1) ∧
    (∀ b ∈ ([1, 1] : List Nat), b = 0 ∨ b = 1) ∧
    (∀ i, i < ([0, 1] : List Nat).length →
      ([0, 1] : List Nat).getD i 0 = 1 → ([1, 1] : List Nat).getD i 0 = 1) ∧
    check_full_edge_coverage [0, 1] [[0, 1], [1, 0]] = true ∧
    check_full_edge_coverage [1, 1] [[0, 1], [1, 0]] = true :=
  ⟨by decide, by decide, by decide, by decide, by decide,
    check_coverage_monotone [[0, 1], [1, 0]] [0, 1] [1, 1] (by decide)
      (by decide) (by decide) (by decide) (by decide)⟩

/-- Claim C5: for every `N` and every N×N weight matrix, the all-ones
length-N vector passes the full-edge-coverage predicate, so `brute_force`
returns `some m` with `m ≤ N`. -/
theorem all_ones_always_covers (N : Nat) (w : List (List Int))
    (hlen : w.length = N) :
    check_full_edge_coverage (List.replicate N 1) w = true ∧
    ∃ m, brute_force w N = some m ∧ m ≤ N := by
  refine ⟨(check_iff _ _).mpr (isValidCover_ones N w hlen), ?_⟩
  obtain ⟨m, hbf, _, hmin⟩ := brute_force_min N w hlen
  refine ⟨m, hbf, ?_⟩
  have := hmin (List.replicate N 1) (isBinVec_ones N)
    (isValidCover_ones N w hlen)
  rwa [hamming_weight_replicate_one] at this

theorem all_ones_always_covers_witness :
    example_w.length = 3 ∧
    (check_full_edge_coverage (List.replicate 3 1) example_w = true ∧
      ∃ m, brute_force example_w 3 = some m ∧ m ≤ 3) :=
  ⟨by decide, all_ones_always_covers 3 example_w (by decide)⟩

/-- Claim C6: for every `N`, the empty graph (all-zero N×N weight matrix)
has minimum vertex cover size 0: `brute_force` returns `some 0`. -/
theorem empty_graph_min_cover (N : Nat) :
    brute_force (List.replicate N (List.replicate N 0)) N = some 0 := by
  obtain ⟨m, hbf, _, hmin⟩ :=
    brute_force_min N (List.replicate N (List.replicate N 0)) (by simp)
  have hzeros_bin : isBinVec N (List.replicate N 0) := by
    refine ⟨by simp, ?_⟩
    intro b hb
    rw [List.mem_replicate] at hb
    exact Or.inl hb.2
  have hvalid : isValidCover (List.replicate N 0)
      (List.replicate N (List.replicate N 0)) := by
    intro i hi j hj hne
    exfalso
    apply hne
    simp only [List.length_replicate] at hi hj
    rw [getD_replicate N i (List.replicate N (0 : Int)) [] hi,
      getD_replicate N j (0 : Int) 0 hj]
  have h0 := hmin (List.replicate N 0) hzeros_bin hvalid
  have hham : hamming_weight (List.replicate N 0) = 0 := by
    simp [hamming_weight]
  rw [hham] at h0
  rw [hbf]
  congr 1
  omega

/-- Claim C7: the brute-force loop is total: for every matrix and every `N`
it runs exactly `2 ^ N` iterations, evaluating the coverage predicate once
per iteration, and produces the same result as `brute_force`, with no other
effect or error path. -/
theorem brute_force_total_count (w : List (List Int)) (N : Nat) :
    brute_force_counted w N = (brute_force w N, 2 ^ N) := by
  rw [brute_force_counted, Prod.ext_iff]
  constructor
  · rw [counted_fst]
    rfl
  · rw [counted_snd]
    simp

/-- Claim C8: the weight matrix of the seeded example (modelled from the
spec, the generator being external framework code) is 3×3, symmetric, has
zero diagonal, and has only non-negative entries. -/
theorem example_w_well_formed :
    example_w.length = 3 ∧
    (∀ row ∈ example_w, row.length = 3) ∧
    (∀ i < 3, ∀ j < 3,
      (example_w.getD i []).getD j 0 = (example_w.getD j []).getD i 0) ∧
    (∀ i < 3, (example_w.getD i []).getD i 0 = 0) ∧
    (∀ row ∈ example_w, ∀ x ∈ row, 0 ≤ x) := by decide

/-- Claim C9: if no enumerated bitfield passes the coverage predicate,
`brute_force` returns the untouched initial sentinel (`none`, modelling
`np.inf`) rather than failing. -/
theorem brute_force_no_solution (w : List (List Int)) (N : Nat)
    (h : ∀ i, i < 2 ^ N →
      check_full_edge_coverage (bitfield i N) w = false) :
    brute_force w N = none := by
  rw [brute_force_eq_candMin]
  exact (candMin_none_iff w N (List.range (2 ^ N))).mpr
    (fun i hi => h i (List.mem_range.mp hi))

theorem brute_force_no_solution_witness :
    (∀ i, i < 2 ^ 0 →
      check_full_edge_coverage (bitfield i 0) [[0, 1], [1, 0]] = false) ∧
    brute_force [[0, 1], [1, 0]] 0 = none :=
  ⟨by decide, brute_force_no_solution [[0, 1], [1, 0]] 0 (by decide)⟩

/-- Claim C10: `brute_force` is deterministic: two runs on equal weight
matrices and equal node counts return equal results; the embedding is a pure
function of `w` and `num_nodes`, independent of any random state. -/
theorem brute_force_deterministic (w₁ w₂ : List (List Int)) (N₁ N₂ : Nat)
    (hw : w₁ = w₂) (hN : N₁ = N₂) :
    brute_force w₁ N₁ = brute_force w₂ N₂ := by
  rw [hw, hN]

theorem brute_force_deterministic_witness :
    example_w = example_w ∧ (3 : Nat) = 3 ∧
    brute_force example_w 3 = brute_force example_w 3 :=
  ⟨rfl, rfl, brute_force_deterministic example_w example_w 3 3 rfl rfl⟩
